import Mathlib

/-!
Verification of the govault LRU cache (src/govault.go) against its
specification.

The Go package implements a bounded-memory in-process key-value cache with
LRU eviction.  The shallow embedding below models:

  - Go runtime values, as far as the reflective size estimator
    `calculateSize` (src/govault.go lines 126-175) can observe them, by the
    inductive type `GoVal`;
  - the cache state `Cache` (lines 11-17): the index map `store` is
    modelled by its key set (a list of keys), the recency list `evictList`
    by a list of entries with the front of the Go list at the head;
  - the operations `New`, `Set`, `Get`, `Delete`, `evict`,
    `calculateEntrySize`, `calculateSize`.

Modelling conventions, each tied to the source:

  - Go `int64` arithmetic is modelled by `Int`; the one place where a
    claim of the specification depends on 64-bit wrap-around is the
    capacity computation `maxMB * 1024 * 1024` in `New` (line 35), which
    is therefore wrapped explicitly by `wrap64`.  Entry sizes and the
    running total are kept exact: they are nonnegative sums of per-value
    estimates.
  - `unsafe.Sizeof` is a compile-time construct in Go: its operand is
    never evaluated, and its result depends only on the static type of
    the operand.  On a 64-bit platform (the package assumes one):
    `Sizeof(v.Pointer()) = 8` (uintptr), `Sizeof(v.String()) = 16`
    (string header), and `Sizeof(v.Index(0).Interface()) =
    Sizeof(v.Interface()) = 16` (interface header).  In particular the
    `v.Index(0)` appearing in the slice case of `calculateSize`
    (line 141) is never executed, so no bound check can fail there.
  - the Go map `store` maps keys to pointers into the linked list; the
    embedding keeps the key set of the map and locates the pointed-to
    element by its key, which is unique by the bijection invariant
    proved below (`C2_index_list_bijection`).
  - the `sync.Mutex` field serialises the public operations; under the
    lock each operation is sequential, so the embedding is the sequential
    state transformer of each operation.
  - `Set` contains a `for` loop (lines 67-69) that does not terminate
    from every a-priori state; it is modelled by a fuelled iterator
    `evictLoopF`.  Fuel `length + 1` is exact: `evict` strictly shortens
    the list while it is nonempty and is the identity on the empty list,
    so if the loop is still running after `length + 1` steps it has
    reached a fixed point with its condition still true and never exits.
    `Set` returns `none` exactly when the Go loop runs forever.
-/

namespace GoVault

mutual
/-- Go runtime values as observed by the reflective size estimator
(src/govault.go lines 126-175).  One constructor per `reflect.Kind` case
of `calculateSize`: `ptrNil`/`ptr` are the `reflect.Ptr, reflect.Interface`
case split on `v.IsNil()`, `str` is `reflect.String` (content as a byte
list, `len` in Go counts bytes), `slice` is `reflect.Slice` (allocated
capacity plus the `v.Len()` present elements), `map` is `reflect.Map`
(stored key-value pairs), `struct` is `reflect.Struct` (field values),
`array` is `reflect.Array`, and `basic` is the `default` case (a
fixed-width scalar such as an int or bool, carrying its numeric value so
that distinct keys stay distinct). -/
inductive GoVal where
  | ptrNil
  | ptr (v : GoVal)
  | str (s : List Nat)
  | slice (cap : Nat) (elems : GoVals)
  | map (pairs : GoPairs)
  | struct (fields : GoVals)
  | array (elems : GoVals)
  | basic (n : Int)
deriving DecidableEq

inductive GoVals where
  | nil
  | cons (hd : GoVal) (tl : GoVals)
deriving DecidableEq

inductive GoPairs where
  | nil
  | cons (k v : GoVal) (tl : GoPairs)
deriving DecidableEq
end

mutual
/-- calculateSize recursively calculates the size of any Go type
(src/govault.go lines 126-175), translated case by case; the
`unsafe.Sizeof` constants are the 64-bit values noted in the header
(8 for a uintptr, 16 for a string header, 16 for an interface header).
`sizeList` and `sizePairs` are the element/field and map-pair loops. -/
def calculateSize : GoVal → Int
  | .ptrNil => 8
  | .ptr v => 8 + calculateSize v
  | .str s => 16 + (s.length : Int)
  | .slice cp elems => 8 + 16 * (cp : Int) + sizeList elems
  | .map pairs => 8 + sizePairs pairs
  | .struct fields => sizeList fields
  | .array elems => sizeList elems
  | .basic _ => 16

def sizeList : GoVals → Int
  | .nil => 0
  | .cons v vs => calculateSize v + sizeList vs

def sizePairs : GoPairs → Int
  | .nil => 0
  | .cons k v ps => calculateSize k + calculateSize v + sizePairs ps
end

/-- calculateEntrySize estimates the memory size of a key-value pair in
bytes (src/govault.go lines 119-123). -/
def calculateEntrySize (key value : GoVal) : Int :=
  calculateSize key + calculateSize value

/-- entry holds both the key and value, and the memory size of the value
(src/govault.go lines 20-24). -/
structure entry where
  key : GoVal
  value : GoVal
  size : Int
deriving DecidableEq

/-- Cache (src/govault.go lines 11-17).  `store` is the key set of the Go
map `store map[Key]*list.Element`; `evictList` is the `container/list`
recency list, head = front = most recently used; the `sync.Mutex` field
has no sequential content and is omitted. -/
structure Cache where
  store : List GoVal
  evictList : List entry
  maxSize : Int
  currSize : Int
deriving DecidableEq

/-- Signed 64-bit wrap-around, as performed by Go int64 multiplication;
9223372036854775808 = 2^63 and 18446744073709551616 = 2^64. -/
def wrap64 (x : Int) : Int :=
  (x + 9223372036854775808) % 18446744073709551616 - 9223372036854775808

/-- New (src/govault.go lines 27-37): panics (here: `none`) when
`maxMB <= 0`, otherwise returns an empty cache with
`maxSize = maxMB * 1024 * 1024` computed in int64 arithmetic. -/
def New (maxMB : Int) : Option Cache :=
  if maxMB ≤ 0 then none
  else some { store := [], evictList := [],
              maxSize := wrap64 (maxMB * 1024 * 1024), currSize := 0 }

/-- The predicate with which the embedding locates the list element the Go
map points at for a key: the unique entry holding that key. -/
def keyIs (k : GoVal) (e : entry) : Bool :=
  decide (e.key = k)

/-- evict (src/govault.go lines 88-102): remove the back of the recency
list, delete its key from the index, subtract its size from the running
total; no-op when the list is empty (`c.evictList.Back() == nil`). -/
def evict (c : Cache) : Cache :=
  match c.evictList.getLast? with
  | none => c
  | some ent =>
    { c with evictList := c.evictList.dropLast,
             store := c.store.erase ent.key,
             currSize := c.currSize - ent.size }

/-- The body of Set before the eviction loop (src/govault.go lines 46-64):
on an existing key, adjust the running total by the size delta, replace
the stored value and size in place, and move the element to the front;
on a new key, push a fresh entry to the front, add the key to the index,
and add its size to the total. -/
def setBody (c : Cache) (key value : GoVal) : Cache :=
  let entrySize := calculateEntrySize key value
  match c.evictList.find? (keyIs key) with
  | some elemEnt =>
    { c with currSize := c.currSize - elemEnt.size + entrySize,
             evictList := { elemEnt with value := value, size := entrySize }
                          :: c.evictList.eraseP (keyIs key) }
  | none =>
    { c with evictList := ⟨key, value, entrySize⟩ :: c.evictList,
             store := key :: c.store,
             currSize := c.currSize + entrySize }

/-- The eviction loop of Set, `for c.currSize > c.maxSize { c.evict() }`
(src/govault.go lines 67-69), run with explicit fuel. -/
def evictLoopF : Nat → Cache → Cache
  | 0, c => c
  | n + 1, c => if c.maxSize < c.currSize then evictLoopF n (evict c) else c

/-- Set (src/govault.go lines 41-70): the body followed by the eviction
loop.  Fuel `length + 1` decides the loop exactly (see the header); the
result is `none` precisely when the Go loop never exits. -/
def Set (c : Cache) (key value : GoVal) : Option Cache :=
  let s := setBody c key value
  let r := evictLoopF (s.evictList.length + 1) s
  if r.maxSize < r.currSize then none else some r

/-- Get (src/govault.go lines 73-85): on a hit, move the element to the
front and return its value; on a miss return the zero value (here:
`none`) and leave the cache unchanged. -/
def Get (c : Cache) (key : GoVal) : Option GoVal × Cache :=
  match c.evictList.find? (keyIs key) with
  | some elemEnt =>
    (some elemEnt.value,
     { c with evictList := elemEnt :: c.evictList.eraseP (keyIs key) })
  | none => (none, c)

/-- Delete (src/govault.go lines 105-115): if the key is present, remove
the element from the list and the key from the index and subtract the
recorded size; no-op otherwise. -/
def Delete (c : Cache) (key : GoVal) : Cache :=
  match c.evictList.find? (keyIs key) with
  | some elemEnt =>
    { c with evictList := c.evictList.eraseP (keyIs key),
             store := c.store.erase key,
             currSize := c.currSize - elemEnt.size }
  | none => c

/-- A public operation on the cache. -/
inductive Op where
  | set (k v : GoVal)
  | get (k : GoVal)
  | del (k : GoVal)
deriving DecidableEq

/-- One public operation as a state transformer; `none` when a Set
diverges in its eviction loop. -/
def applyOp (c : Cache) : Op → Option Cache
  | .set k v => Set c k v
  | .get k => some (Get c k).2
  | .del k => some (Delete c k)

/-- A sequence of public operations run from a state. -/
def runOps : Cache → List Op → Option Cache
  | c, [] => some c
  | c, op :: ops => match applyOp c op with
    | some c₂ => runOps c₂ ops
    | none => none

/-- The keys of the recency list, in list order. -/
def listKeys (c : Cache) : List GoVal :=
  c.evictList.map entry.key

/-- The sum of the recorded sizes of the entries of the recency list. -/
def sumSizes (l : List entry) : Int :=
  (l.map entry.size).sum

end GoVault

namespace GoVault

/-- The three internal invariants of the cache: the running total equals
the sum of recorded sizes, every recorded size is nonnegative, and the
index key set is in bijection with the recency-list entries (the key
multisets agree and the list keys are duplicate-free). -/
def Inv (c : Cache) : Prop :=
  c.currSize = sumSizes c.evictList ∧
  (∀ e ∈ c.evictList, 0 ≤ e.size) ∧
  c.store.Perm (listKeys c) ∧
  (listKeys c).Nodup

mutual
theorem calculateSize_nonneg : (v : GoVal) → 0 ≤ calculateSize v
  | .ptrNil => by simp [calculateSize]
  | .ptr v => by
    have h := calculateSize_nonneg v
    simp only [calculateSize]; omega
  | .str s => by simp only [calculateSize]; omega
  | .slice cp elems => by
    have h := sizeList_nonneg elems
    simp only [calculateSize]
    have h2 : (0 : Int) ≤ 16 * (cp : Int) := by positivity
    omega
  | .map pairs => by
    have h := sizePairs_nonneg pairs
    simp only [calculateSize]; omega
  | .struct fields => by
    have h := sizeList_nonneg fields
    simp only [calculateSize]; omega
  | .array elems => by
    have h := sizeList_nonneg elems
    simp only [calculateSize]; omega
  | .basic _ => by simp [calculateSize]

theorem sizeList_nonneg : (l : GoVals) → 0 ≤ sizeList l
  | .nil => by simp [sizeList]
  | .cons v vs => by
    have h1 := calculateSize_nonneg v
    have h2 := sizeList_nonneg vs
    simp only [sizeList]; omega

theorem sizePairs_nonneg : (l : GoPairs) → 0 ≤ sizePairs l
  | .nil => by simp [sizePairs]
  | .cons k v ps => by
    have h1 := calculateSize_nonneg k
    have h2 := calculateSize_nonneg v
    have h3 := sizePairs_nonneg ps
    simp only [sizePairs]; omega
end

theorem calculateEntrySize_nonneg (k v : GoVal) : 0 ≤ calculateEntrySize k v := by
  have h1 := calculateSize_nonneg k
  have h2 := calculateSize_nonneg v
  unfold calculateEntrySize; omega

theorem keyIs_iff (k : GoVal) (e : entry) : keyIs k e = true ↔ e.key = k := by
  simp [keyIs]

/-- A successful `find?` splits the list around the found element, and
`eraseP` with the same predicate removes exactly that element. -/
theorem find?_split {p : entry → Bool} {l : List entry} {e : entry}
    (h : l.find? p = some e) :
    ∃ l₁ l₂, l = l₁ ++ e :: l₂ ∧ (∀ x ∈ l₁, ¬ p x = true) ∧
      l.eraseP p = l₁ ++ l₂ := by
  induction l with
  | nil => simp at h
  | cons a t ih =>
    by_cases hp : p a = true
    · rw [List.find?_cons_of_pos _ hp] at h
      cases h
      exact ⟨[], t, rfl, by simp, List.eraseP_cons_of_pos hp⟩
    · rw [List.find?_cons_of_neg _ hp] at h
      obtain ⟨l₁, l₂, rfl, hl₁, he⟩ := ih h
      refine ⟨a :: l₁, l₂, rfl, ?_, ?_⟩
      · intro x hx
        rcases List.mem_cons.1 hx with hx | hx
        · exact hx ▸ hp
        · exact hl₁ x hx
      · rw [List.eraseP_cons_of_neg hp, he, List.cons_append]

theorem sumSizes_append (l₁ l₂ : List entry) :
    sumSizes (l₁ ++ l₂) = sumSizes l₁ + sumSizes l₂ := by
  simp [sumSizes]

theorem sumSizes_cons (e : entry) (l : List entry) :
    sumSizes (e :: l) = e.size + sumSizes l := by
  simp [sumSizes]

theorem sumSizes_nonneg {l : List entry} (h : ∀ e ∈ l, 0 ≤ e.size) :
    0 ≤ sumSizes l := by
  induction l with
  | nil => simp [sumSizes]
  | cons e t ih =>
    rw [sumSizes_cons]
    have h1 := h e (List.mem_cons_self e t)
    have h2 := ih fun x hx => h x (List.mem_cons_of_mem e hx)
    omega

end GoVault

namespace GoVault

theorem evict_maxSize (c : Cache) : (evict c).maxSize = c.maxSize := by
  unfold evict
  cases h : c.evictList.getLast? <;> simp

theorem nodup_append_singleton {xs : List GoVal} {a : GoVal}
    (h : (xs ++ [a]).Nodup) : a ∉ xs := by
  intro ha
  rcases List.nodup_append.mp h with ⟨-, -, hdisj⟩
  exact hdisj ha (List.mem_singleton_self a)

/-- evict preserves the three internal invariants. -/
theorem Inv_evict {c : Cache} (hInv : Inv c) : Inv (evict c) := by
  obtain ⟨hsum, hnn, hperm, hnd⟩ := hInv
  unfold evict
  cases h : c.evictList.getLast? with
  | none => exact ⟨hsum, hnn, hperm, hnd⟩
  | some e =>
    have hsplit : c.evictList.dropLast ++ [e] = c.evictList :=
      List.dropLast_append_getLast? e (Option.mem_def.mpr h)
    have hkeys : listKeys c = (c.evictList.dropLast.map entry.key) ++ [e.key] := by
      unfold listKeys
      conv_lhs => rw [← hsplit]
      rw [List.map_append]; rfl
    have hnotmem : e.key ∉ c.evictList.dropLast.map entry.key :=
      nodup_append_singleton (hkeys ▸ hnd)
    refine ⟨?_, ?_, ?_, ?_⟩
    · show c.currSize - e.size = sumSizes c.evictList.dropLast
      have : sumSizes (c.evictList.dropLast ++ [e]) =
          sumSizes c.evictList.dropLast + sumSizes [e] := sumSizes_append _ _
      rw [hsplit] at this
      have he : sumSizes [e] = e.size := by simp [sumSizes]
      omega
    · intro x hx
      exact hnn x ((List.dropLast_sublist c.evictList).mem hx)
    · show (c.store.erase e.key).Perm (c.evictList.dropLast.map entry.key)
      have h1 : (c.store.erase e.key).Perm ((listKeys c).erase e.key) :=
        hperm.erase e.key
      rw [hkeys, List.erase_append_right _ hnotmem, List.erase_cons_head,
        List.append_nil] at h1
      exact h1
    · show (c.evictList.dropLast.map entry.key).Nodup
      exact ((List.dropLast_sublist c.evictList).map entry.key).nodup
        (show (listKeys c).Nodup from hnd)

theorem setBody_maxSize (c : Cache) (k v : GoVal) :
    (setBody c k v).maxSize = c.maxSize := by
  unfold setBody
  cases h : c.evictList.find? (keyIs k) <;> simp

/-- setBody preserves the three internal invariants. -/
theorem Inv_setBody {c : Cache} (k v : GoVal) (hInv : Inv c) :
    Inv (setBody c k v) := by
  obtain ⟨hsum, hnn, hperm, hnd⟩ := hInv
  unfold setBody
  cases h : c.evictList.find? (keyIs k) with
  | none =>
    have hknot : k ∉ listKeys c := by
      intro hk
      rcases List.mem_map.mp hk with ⟨e, he, hek⟩
      exact (List.find?_eq_none.mp h e he) ((keyIs_iff k e).mpr hek)
    refine ⟨?_, ?_, ?_, ?_⟩
    · show c.currSize + calculateEntrySize k v =
        sumSizes (⟨k, v, calculateEntrySize k v⟩ :: c.evictList)
      rw [sumSizes_cons, hsum]; ring
    · intro x hx
      rcases List.mem_cons.mp hx with hx | hx
      · rw [hx]; exact calculateEntrySize_nonneg k v
      · exact hnn x hx
    · show (k :: c.store).Perm (listKeys (⟨_, _, _, _⟩ : Cache))
      show (k :: c.store).Perm ((⟨k, v, calculateEntrySize k v⟩ :: c.evictList).map entry.key)
      rw [List.map_cons]
      exact hperm.cons k
    · show ((⟨k, v, calculateEntrySize k v⟩ :: c.evictList).map entry.key).Nodup
      rw [List.map_cons]
      exact List.nodup_cons.mpr ⟨hknot, hnd⟩
  | some e =>
    have hek : e.key = k := (keyIs_iff k e).mp (List.find?_some h)
    obtain ⟨l₁, l₂, hl, hl₁, herase⟩ := find?_split h
    have hkeys : listKeys c = (l₁.map entry.key) ++ e.key :: (l₂.map entry.key) := by
      unfold listKeys; rw [hl]; simp
    refine ⟨?_, ?_, ?_, ?_⟩
    · show c.currSize - e.size + calculateEntrySize k v =
        sumSizes ({ e with value := v, size := calculateEntrySize k v } :: c.evictList.eraseP (keyIs k))
      rw [sumSizes_cons, herase, sumSizes_append, hsum, hl, sumSizes_append,
        sumSizes_cons]
      simp only []
      ring
    · intro x hx
      rcases List.mem_cons.mp hx with hx | hx
      · rw [hx]; exact calculateEntrySize_nonneg k v
      · rw [herase] at hx
        have : x ∈ c.evictList := by
          rw [hl]
          rcases List.mem_append.mp hx with hx | hx
          · exact List.mem_append.mpr (Or.inl hx)
          · exact List.mem_append.mpr (Or.inr (List.mem_cons_of_mem e hx))
        exact hnn x this
    · show c.store.Perm _
      rw [show listKeys { c with
            currSize := c.currSize - e.size + calculateEntrySize k v,
            evictList := { e with value := v, size := calculateEntrySize k v }
              :: c.evictList.eraseP (keyIs k) } =
          e.key :: (c.evictList.eraseP (keyIs k)).map entry.key from rfl]
      rw [herase, List.map_append]
      refine hperm.trans ?_
      rw [hkeys]
      exact List.perm_middle
    · show (e.key :: (c.evictList.eraseP (keyIs k)).map entry.key).Nodup
      have hperm2 : (listKeys c).Perm (e.key :: (c.evictList.eraseP (keyIs k)).map entry.key) := by
        rw [hkeys, herase, List.map_append]
        exact List.perm_middle
      exact hperm2.nodup hnd

end GoVault

namespace GoVault

theorem Get_maxSize (c : Cache) (k : GoVal) : (Get c k).2.maxSize = c.maxSize := by
  unfold Get
  cases h : c.evictList.find? (keyIs k) <;> simp

/-- The cache returned by Get has a recency list that is a permutation of
the original (the hit entry moved to the front), so all invariants carry
over. -/
theorem Inv_Get {c : Cache} (k : GoVal) (hInv : Inv c) : Inv (Get c k).2 := by
  obtain ⟨hsum, hnn, hperm, hnd⟩ := hInv
  unfold Get
  cases h : c.evictList.find? (keyIs k) with
  | none => exact ⟨hsum, hnn, hperm, hnd⟩
  | some e =>
    obtain ⟨l₁, l₂, hl, hl₁, herase⟩ := find?_split h
    have hpl : c.evictList.Perm (e :: c.evictList.eraseP (keyIs k)) := by
      rw [herase, hl]
      exact List.perm_middle
    refine ⟨?_, ?_, ?_, ?_⟩
    · show c.currSize = sumSizes (e :: c.evictList.eraseP (keyIs k))
      rw [hsum]
      exact (hpl.map entry.size).sum_eq
    · intro x hx
      exact hnn x (hpl.symm.subset hx)
    · exact hperm.trans (hpl.map entry.key)
    · exact (hpl.map entry.key).nodup hnd

theorem Delete_maxSize (c : Cache) (k : GoVal) : (Delete c k).maxSize = c.maxSize := by
  unfold Delete
  cases h : c.evictList.find? (keyIs k) <;> simp

/-- Delete preserves the three internal invariants. -/
theorem Inv_Delete {c : Cache} (k : GoVal) (hInv : Inv c) : Inv (Delete c k) := by
  obtain ⟨hsum, hnn, hperm, hnd⟩ := hInv
  unfold Delete
  cases h : c.evictList.find? (keyIs k) with
  | none => exact ⟨hsum, hnn, hperm, hnd⟩
  | some e =>
    have hek : e.key = k := (keyIs_iff k e).mp (List.find?_some h)
    obtain ⟨l₁, l₂, hl, hl₁, herase⟩ := find?_split h
    have hkeys : listKeys c = (l₁.map entry.key) ++ e.key :: (l₂.map entry.key) := by
      unfold listKeys; rw [hl]; simp
    have hnotmem : e.key ∉ l₁.map entry.key := by
      intro hmem
      rw [hkeys] at hnd
      rcases List.nodup_append.mp hnd with ⟨-, -, hdisj⟩
      exact hdisj hmem (List.mem_cons_self _ _)
    refine ⟨?_, ?_, ?_, ?_⟩
    · show c.currSize - e.size = sumSizes (c.evictList.eraseP (keyIs k))
      rw [herase, sumSizes_append, hsum, hl, sumSizes_append, sumSizes_cons]
      ring
    · intro x hx
      rw [herase] at hx
      refine hnn x ?_
      rw [hl]
      rcases List.mem_append.mp hx with hx | hx
      · exact List.mem_append.mpr (Or.inl hx)
      · exact List.mem_append.mpr (Or.inr (List.mem_cons_of_mem e hx))
    · show (c.store.erase k).Perm ((c.evictList.eraseP (keyIs k)).map entry.key)
      have h1 : (c.store.erase k).Perm ((listKeys c).erase k) := hperm.erase k
      rw [hkeys, hek, List.erase_append_right _ (hek ▸ hnotmem),
        List.erase_cons_head] at h1
      rw [herase, List.map_append]
      exact h1
    · show ((c.evictList.eraseP (keyIs k)).map entry.key).Nodup
      rw [herase, List.map_append]
      refine List.Nodup.sublist ?_ (hkeys ▸ hnd)
      exact (List.sublist_cons_self e.key _).append_left _

theorem evictLoopF_maxSize (n : Nat) (c : Cache) :
    (evictLoopF n c).maxSize = c.maxSize := by
  induction n generalizing c with
  | zero => rfl
  | succ n ih =>
    unfold evictLoopF
    by_cases h : c.maxSize < c.currSize
    · rw [if_pos h, ih, evict_maxSize]
    · rw [if_neg h]

theorem Inv_evictLoopF {c : Cache} (n : Nat) (hInv : Inv c) :
    Inv (evictLoopF n c) := by
  induction n generalizing c with
  | zero => exact hInv
  | succ n ih =>
    unfold evictLoopF
    by_cases h : c.maxSize < c.currSize
    · rw [if_pos h]; exact ih (Inv_evict hInv)
    · rw [if_neg h]; exact hInv

theorem evict_length_lt {c : Cache} (h : c.evictList ≠ []) :
    (evict c).evictList.length < c.evictList.length := by
  unfold evict
  cases hg : c.evictList.getLast? with
  | none =>
    rw [List.getLast?_eq_getLast_of_ne_nil h] at hg
    exact absurd hg (by simp)
  | some e =>
    show c.evictList.dropLast.length < c.evictList.length
    rw [List.length_dropLast]
    have : 0 < c.evictList.length := List.length_pos.mpr h
    omega

/-- When the capacity is nonnegative and the invariants hold, the
eviction loop exits within `length + 1` iterations: each iteration
strictly shortens the list, and an empty list forces the running total
to 0, which is within capacity. -/
theorem evictLoopF_exits (n : Nat) (c : Cache) (hInv : Inv c)
    (hmax : 0 ≤ c.maxSize) (hfuel : c.evictList.length < n) :
    ¬ (evictLoopF n c).maxSize < (evictLoopF n c).currSize := by
  induction n generalizing c with
  | zero => omega
  | succ n ih =>
    unfold evictLoopF
    by_cases h : c.maxSize < c.currSize
    · rw [if_pos h]
      have hne : c.evictList ≠ [] := by
        intro hemp
        obtain ⟨hsum, -, -, -⟩ := hInv
        rw [hemp] at hsum
        simp [sumSizes] at hsum
        omega
      refine ih (evict c) (Inv_evict hInv) ?_ ?_
      · rw [evict_maxSize]; exact hmax
      · have h1 := evict_length_lt hne
        omega
    · rw [if_neg h]; exact h

end GoVault

namespace GoVault

theorem Set_eq_some {c r : Cache} {k v : GoVal} (h : Set c k v = some r) :
    r = evictLoopF ((setBody c k v).evictList.length + 1) (setBody c k v) := by
  unfold Set at h
  simp only [] at h
  split at h
  · cases h
  · cases h; rfl

theorem Inv_Set {c r : Cache} {k v : GoVal} (hInv : Inv c)
    (h : Set c k v = some r) : Inv r := by
  rw [Set_eq_some h]
  exact Inv_evictLoopF _ (Inv_setBody k v hInv)

theorem Set_maxSize_eq {c r : Cache} {k v : GoVal} (h : Set c k v = some r) :
    r.maxSize = c.maxSize := by
  rw [Set_eq_some h, evictLoopF_maxSize, setBody_maxSize]

/-- The concluding step of C3: from an invariant-satisfying state with
nonnegative capacity, the eviction loop of Set exits, so Set returns. -/
theorem Set_isSome {c : Cache} (k v : GoVal) (hInv : Inv c)
    (hmax : 0 ≤ c.maxSize) : (Set c k v).isSome = true := by
  unfold Set
  simp only []
  have hInv2 := Inv_setBody k v hInv
  have hmax2 : 0 ≤ (setBody c k v).maxSize := by
    rw [setBody_maxSize]; exact hmax
  have hexit := evictLoopF_exits ((setBody c k v).evictList.length + 1)
    (setBody c k v) hInv2 hmax2 (by omega)
  rw [if_neg hexit]
  rfl

theorem New_eq_some {maxMB : Int} {c₀ : Cache} (h : New maxMB = some c₀) :
    0 < maxMB ∧ c₀ = ⟨[], [], wrap64 (maxMB * 1024 * 1024), 0⟩ := by
  unfold New at h
  by_cases hm : maxMB ≤ 0
  · rw [if_pos hm] at h; cases h
  · rw [if_neg hm] at h; cases h; exact ⟨by omega, rfl⟩

theorem Inv_New {maxMB : Int} {c₀ : Cache} (h : New maxMB = some c₀) :
    Inv c₀ := by
  obtain ⟨-, h2⟩ := New_eq_some h
  rw [h2]
  exact ⟨rfl, by simp, by simp [listKeys], by simp [listKeys]⟩

theorem Inv_applyOp {c c₂ : Cache} {op : Op} (hInv : Inv c)
    (h : applyOp c op = some c₂) : Inv c₂ ∧ c₂.maxSize = c.maxSize := by
  cases op with
  | set k v => exact ⟨Inv_Set hInv h, Set_maxSize_eq h⟩
  | get k => cases h; exact ⟨Inv_Get k hInv, Get_maxSize c k⟩
  | del k => cases h; exact ⟨Inv_Delete k hInv, Delete_maxSize c k⟩

/-- Every state reached by running public operations from an
invariant-satisfying state satisfies the invariants and keeps the
configured capacity. -/
theorem Inv_runOps {ops : List Op} {c c₂ : Cache} (hInv : Inv c)
    (h : runOps c ops = some c₂) : Inv c₂ ∧ c₂.maxSize = c.maxSize := by
  induction ops generalizing c with
  | nil => cases h; exact ⟨hInv, rfl⟩
  | cons op ops ih =>
    unfold runOps at h
    cases hop : applyOp c op with
    | none => rw [hop] at h; cases h
    | some c₁ =>
      rw [hop] at h
      obtain ⟨h1, h2⟩ := Inv_applyOp hInv hop
      obtain ⟨h3, h4⟩ := ih h1 h
      exact ⟨h3, by rw [h4, h2]⟩

end GoVault

namespace GoVault

theorem wrap64_eq_self {x : Int} (h1 : -9223372036854775808 ≤ x)
    (h2 : x < 9223372036854775808) : wrap64 x = x := by
  unfold wrap64
  rw [Int.emod_eq_of_lt (by omega) (by omega)]
  omega

/-- Iterating `evict`, the raw loop body of Set, with no exit condition:
`evictIter n c` is the state after `n` executions of the loop body.  Used
to state that a particular eviction loop never exits. -/
def evictIter : Nat → Cache → Cache
  | 0, c => c
  | n + 1, c => evictIter n (evict c)

theorem Inv_evictIter {c : Cache} (n : Nat) (hInv : Inv c) :
    Inv (evictIter n c) ∧ (evictIter n c).maxSize = c.maxSize := by
  induction n generalizing c with
  | zero => exact ⟨hInv, rfl⟩
  | succ n ih =>
    obtain ⟨h1, h2⟩ := ih (Inv_evict hInv)
    exact ⟨h1, by rw [show evictIter (n + 1) c = evictIter n (evict c) from rfl,
      h2, evict_maxSize]⟩

/-- While its condition keeps holding, the fuelled loop agrees with the
raw iteration of the loop body. -/
theorem evictLoopF_eq_iter : (n : Nat) → (c : Cache) →
    (∀ m, (evictIter m c).maxSize < (evictIter m c).currSize) →
    evictLoopF n c = evictIter n c
  | 0, _, _ => rfl
  | n + 1, c, h => by
    unfold evictLoopF evictIter
    have h0 : c.maxSize < c.currSize := h 0
    rw [if_pos h0]
    exact evictLoopF_eq_iter n (evict c) (fun m => h (m + 1))

/-- The cache built by `New 8796093022208` (maxMB = 2^43): the byte
capacity 2^63 overflows int64 and wraps to -2^63. -/
def ovCache : Cache :=
  ⟨[], [], -9223372036854775808, 0⟩

theorem New_pow43 : New 8796093022208 = some ovCache := by decide

theorem Inv_ovCache : Inv ovCache :=
  ⟨rfl, by simp [ovCache], by simp [ovCache, listKeys], by simp [ovCache, listKeys]⟩

/-- From the overflowed cache, any Set keeps the loop condition true at
every iteration of the loop body: the running total stays nonnegative
while the capacity is -2^63. -/
theorem ovCache_loop_cond (k v : GoVal) (n : Nat) :
    (evictIter n (setBody ovCache k v)).maxSize <
    (evictIter n (setBody ovCache k v)).currSize := by
  obtain ⟨hI, hM⟩ := Inv_evictIter n (Inv_setBody k v Inv_ovCache)
  obtain ⟨hsum, hnn, -, -⟩ := hI
  have hs : 0 ≤ (evictIter n (setBody ovCache k v)).currSize := by
    rw [hsum]; exact sumSizes_nonneg hnn
  have hm : (evictIter n (setBody ovCache k v)).maxSize = -9223372036854775808 := by
    rw [hM, setBody_maxSize]; rfl
  omega

/-- From the overflowed cache, Set diverges: its eviction loop never
exits, so the fuelled model returns `none`. -/
theorem Set_ovCache_none (k v : GoVal) : Set ovCache k v = none := by
  unfold Set
  simp only []
  rw [evictLoopF_eq_iter _ _ (ovCache_loop_cond k v),
    if_pos (ovCache_loop_cond k v _)]

theorem evict_list_of_ne_nil {c : Cache} (h : c.evictList ≠ []) :
    (evict c).evictList = c.evictList.dropLast := by
  unfold evict
  cases hg : c.evictList.getLast? with
  | none =>
    rw [List.getLast?_eq_getLast_of_ne_nil h] at hg
    exact absurd hg (by simp)
  | some e => rfl

/-- Both branches of the Set body leave an entry for the written key, with
the freshly computed size and the new value, at the front of the list. -/
theorem setBody_head (c : Cache) (k v : GoVal) :
    ∃ rest, (setBody c k v).evictList =
      ⟨k, v, calculateEntrySize k v⟩ :: rest := by
  unfold setBody
  cases h : c.evictList.find? (keyIs k) with
  | none => exact ⟨c.evictList, rfl⟩
  | some e =>
    refine ⟨c.evictList.eraseP (keyIs k), ?_⟩
    have hek : e.key = k := (keyIs_iff k e).mp (List.find?_some h)
    simp only []
    cases e
    cases hek
    rfl

/-- The eviction loop never removes the front entry as long as that entry
alone fits within the capacity: when the loop condition holds the list
must contain at least two entries, and eviction removes the back one. -/
theorem evictLoopF_front : (fuel : Nat) → (c : Cache) → (e : entry) →
    (rest : List entry) → Inv c → c.evictList = e :: rest →
    e.size ≤ c.maxSize → c.evictList.length < fuel →
    ∃ rest₂, (evictLoopF fuel c).evictList = e :: rest₂
  | 0, _, _, _, _, _, _, hfuel => absurd hfuel (by omega)
  | fuel + 1, c, e, rest, hInv, hlist, hsize, hfuel => by
    unfold evictLoopF
    by_cases hcond : c.maxSize < c.currSize
    · rw [if_pos hcond]
      cases rest with
      | nil =>
        obtain ⟨hsum, -, -, -⟩ := hInv
        rw [hlist] at hsum
        have : c.currSize = e.size := by
          rw [hsum, sumSizes_cons]; simp [sumSizes]
        omega
      | cons r rs =>
        have hne : c.evictList ≠ [] := by rw [hlist]; simp
        have hlist2 : (evict c).evictList = e :: (r :: rs).dropLast := by
          rw [evict_list_of_ne_nil hne, hlist]
          rfl
        refine evictLoopF_front fuel (evict c) e ((r :: rs).dropLast)
          (Inv_evict hInv) hlist2 ?_ ?_
        · rw [evict_maxSize]; exact hsize
        · have h1 := evict_length_lt hne
          omega
    · rw [if_neg hcond]
      exact ⟨rest, hlist⟩

end GoVault

namespace GoVault

/-- The cache built by `New 1`: 1 MB capacity, 1048576 bytes. -/
def oneMBCache : Cache := ⟨[], [], 1048576, 0⟩

/-- Concrete one-byte string keys used in the scenario runs. -/
def kA : GoVal := .str [65]

def kB : GoVal := .str [66]

def kC : GoVal := .str [67]

def kD : GoVal := .str [68]

/-- A value of estimated size 500008; together with a one-byte string key
the entry size is 500025, so a 1 MB cache holds exactly two such
entries (2 x 500025 = 1000050 <= 1048576 < 1500075). -/
def halfMBVal : GoVal := .slice 31250 .nil

/-- A value of estimated size 300008; together with a one-byte string key
the entry size is 300025, so a 1 MB cache holds exactly three such
entries (3 x 300025 = 900075 <= 1048576 < 1200100). -/
def thirdMBVal : GoVal := .slice 18750 .nil

/-- The operation sequence of the C1/C2 witnesses: inserts, an update, a
read, a delete. -/
def witnessOps : List Op :=
  [.set kA (.basic 7), .set kB (.str [1, 2, 3]), .get kA, .del kB,
   .set kA (.slice 2 (.cons (.basic 1) .nil))]

/-- The final state of the C1/C2 witness run. -/
def witnessFinal : Cache := (runOps oneMBCache witnessOps).getD ⟨[], [], 0, 0⟩

/-- C1: for every sequence of public operations (Set, Get, Delete) run
from a constructed cache, the running size total currSize equals the sum
of the recorded sizes of all entries currently present.  Since every
prefix of a sequence is itself a sequence, this gives the invariant after
each operation. -/
theorem C1_running_total_invariant (maxMB : Int) (ops : List Op)
    (c₀ c : Cache) (h0 : New maxMB = some c₀) (h : runOps c₀ ops = some c) :
    c.currSize = sumSizes c.evictList :=
  (Inv_runOps (Inv_New h0) h).1.1

/-- C1 witness: the invariant at the end of a concrete run mixing
inserts, an update, a read and a delete on a 1 MB cache. -/
theorem C1_witness : witnessFinal.currSize = sumSizes witnessFinal.evictList :=
  C1_running_total_invariant 1 witnessOps oneMBCache witnessFinal
    (by decide) (by decide)

/-- C2: for every sequence of public operations run from a constructed
cache, the index key set and the recency list are in bijection: a key is
in the index exactly when some list entry holds it, the list keys are
pairwise distinct (so an index key locates exactly one entry), and the
index holds no duplicates. -/
theorem C2_index_list_bijection (maxMB : Int) (ops : List Op)
    (c₀ c : Cache) (k : GoVal) (h0 : New maxMB = some c₀)
    (h : runOps c₀ ops = some c) :
    (k ∈ c.store ↔ k ∈ listKeys c) ∧ (listKeys c).Nodup ∧ c.store.Nodup := by
  obtain ⟨⟨-, -, hperm, hnd⟩, -⟩ := Inv_runOps (Inv_New h0) h
  exact ⟨⟨fun hk => hperm.subset hk, fun hk => hperm.symm.subset hk⟩,
    hnd, hperm.symm.nodup hnd⟩

/-- C2 witness: the bijection at the end of the concrete witness run,
instantiated at the key kA. -/
theorem C2_witness :
    (kA ∈ witnessFinal.store ↔ kA ∈ listKeys witnessFinal) ∧
    (listKeys witnessFinal).Nodup ∧ witnessFinal.store.Nodup :=
  C2_index_list_bijection 1 witnessOps oneMBCache witnessFinal kA
    (by decide) (by decide)

/-- C3 counterexample: the claim quantifies over every reachable cache
state, but the state returned by `New (2^43)` is reachable (construction
succeeds) with capacity wrapped to -2^63 < 0, and from it Set diverges:
its eviction loop never exits (`Set` returns `none` exactly in that
case). -/
theorem C3_counterexample :
    New 8796093022208 = some ovCache ∧
    Set ovCache (.str []) (.str []) = none :=
  ⟨New_pow43, Set_ovCache_none (.str []) (.str [])⟩

/-- C3 (amended): the eviction loop inside Set terminates for every cache
state reachable from a construction whose byte capacity does not
overflow int64 (0 < maxMB < 2^43), so Set always returns there.  Each
eviction strictly shortens the list while it is nonempty (it need not
strictly decrease the total: zero-size entries exist), and on the empty
list the total is 0, within the positive capacity, so the loop condition
fails. -/
theorem C3_amended_set_terminates (maxMB : Int) (ops : List Op)
    (c₀ c : Cache) (k v : GoVal) (hub : maxMB < 8796093022208)
    (h0 : New maxMB = some c₀) (h : runOps c₀ ops = some c) :
    (Set c k v).isSome = true := by
  obtain ⟨hpos, hc₀⟩ := New_eq_some h0
  obtain ⟨hInv, hmax⟩ := Inv_runOps (Inv_New h0) h
  refine Set_isSome k v hInv ?_
  rw [hmax, hc₀]
  show 0 ≤ wrap64 (maxMB * 1024 * 1024)
  have hprod : maxMB * 1024 * 1024 = maxMB * 1048576 := by ring
  rw [wrap64_eq_self (by omega) (by omega)]
  omega

/-- C3 witness: Set returns on a concrete small cache. -/
theorem C3_witness : (Set oneMBCache kA (.basic 0)).isSome = true :=
  C3_amended_set_terminates 1 [] oneMBCache oneMBCache kA (.basic 0)
    (by decide) (by decide) rfl

/-- C4: the recursive size estimation is total on every value shape it
can classify and never yields a negative estimate; in particular the
corner cases named by the claim evaluate without any failure: an empty
slice (the `v.Index(0)` in the Go slice case sits inside `unsafe.Sizeof`,
whose operand is never evaluated, so no bound check runs), a nil
pointer, and a zero-length string. -/
theorem C4_estimator_never_fails (k v : GoVal) :
    0 ≤ calculateEntrySize k v ∧
    calculateSize (.slice 0 .nil) = 8 ∧
    calculateSize .ptrNil = 8 ∧
    calculateSize (.str []) = 16 :=
  ⟨calculateEntrySize_nonneg k v, by decide, by decide, by decide⟩

/-- C5 counterexample: the claim requires capacity = capacityMB * 2^20
for every capacityMB > 0, but at capacityMB = 2^43 the int64 product
wraps to -2^63. -/
theorem C5_counterexample :
    New 8796093022208 = some ovCache ∧
    ovCache.maxSize ≠ 8796093022208 * 1024 * 1024 :=
  ⟨New_pow43, by decide⟩

/-- C5 (amended): for every capacityMB with 0 < capacityMB < 2^43 (so the
byte conversion does not overflow int64), construction returns a cache
with capacity capacityMB * 1024 * 1024, empty index, empty recency list
and total 0; for every capacityMB <= 0 construction fails. -/
theorem C5_amended_construction (maxMB : Int) :
    (0 < maxMB → maxMB < 8796093022208 →
      New maxMB = some ⟨[], [], maxMB * 1024 * 1024, 0⟩) ∧
    (maxMB ≤ 0 → New maxMB = none) := by
  constructor
  · intro h1 h2
    unfold New
    rw [if_neg (by omega)]
    have hprod : maxMB * 1024 * 1024 = maxMB * 1048576 := by ring
    rw [wrap64_eq_self (by omega) (by omega)]
  · intro h
    unfold New
    rw [if_pos h]

/-- C5 witness: construction at 1 succeeds with capacity 1048576;
construction at 0 and -1 fails. -/
theorem C5_witness :
    New 1 = some ⟨[], [], 1048576, 0⟩ ∧ New 0 = none ∧ New (-1) = none :=
  ⟨(C5_amended_construction 1).1 (by decide) (by decide),
   (C5_amended_construction 0).2 (by decide),
   (C5_amended_construction (-1)).2 (by decide)⟩

end GoVault

namespace GoVault

/-- C6 counterexample: on a freshly constructed 1 MB cache, Set of a
classifiable value whose entry exceeds the capacity succeeds, but the
eviction loop then evicts the just-inserted entry itself (it is the only,
hence also the least recently used, entry), so the immediate Get misses:
the round-trip fails without a size/capacity precondition. -/
theorem C6_counterexample :
    New 1 = some oneMBCache ∧
    calculateEntrySize (.str [107]) (.slice 65536 .nil) = 1048601 ∧
    Set oneMBCache (.str [107]) (.slice 65536 .nil) = some oneMBCache ∧
    (Get oneMBCache (.str [107])).1 = none :=
  ⟨by decide, by decide, by decide, by decide⟩

/-- C6 (amended): on every reachable cache state, if the combined
estimated size of key and value is within the capacity, then Set
terminates and an immediate Get of the key returns the value: the
eviction loop can only remove entries behind the freshly written front
entry, because whenever the loop runs with the front entry alone in the
list the total equals that entry's size, which is within capacity. -/
theorem C6_amended_roundtrip (maxMB : Int) (ops : List Op) (c₀ c : Cache)
    (k v : GoVal) (h0 : New maxMB = some c₀) (h : runOps c₀ ops = some c)
    (hfit : calculateEntrySize k v ≤ c.maxSize) :
    (Set c k v).isSome = true ∧ (Get ((Set c k v).getD c) k).1 = some v := by
  obtain ⟨hInv, -⟩ := Inv_runOps (Inv_New h0) h
  have hmax : 0 ≤ c.maxSize := le_trans (calculateEntrySize_nonneg k v) hfit
  have hsome := Set_isSome k v hInv hmax
  cases hS : Set c k v with
  | none => rw [hS] at hsome; exact absurd hsome (by simp)
  | some r =>
    have hr := Set_eq_some hS
    obtain ⟨rest, hhead⟩ := setBody_head c k v
    obtain ⟨rest₂, hfront⟩ := evictLoopF_front
      ((setBody c k v).evictList.length + 1) (setBody c k v)
      ⟨k, v, calculateEntrySize k v⟩ rest (Inv_setBody k v hInv) hhead
      (by rw [setBody_maxSize]; exact hfit) (by omega)
    have hfind : r.evictList.find? (keyIs k) =
        some ⟨k, v, calculateEntrySize k v⟩ := by
      rw [hr, hfront, List.find?_cons_of_pos _ (by simp [keyIs])]
    constructor
    · rfl
    · show (Get r k).1 = some v
      unfold Get
      rw [hfind]

/-- C6 witness: a small round-trip on a fresh 1 MB cache. -/
theorem C6_witness :
    (Set oneMBCache kA (.basic 5)).isSome = true ∧
    (Get ((Set oneMBCache kA (.basic 5)).getD oneMBCache) kA).1 =
      some (.basic 5) :=
  C6_amended_roundtrip 1 [] oneMBCache oneMBCache kA (.basic 5)
    (by decide) rfl (by decide)

/-- The state after inserting A, B, C, D (each entry 500025 bytes, the
capacity holds exactly two) into a fresh 1 MB cache: only C and D
remain. -/
def cAfterABCD2 : Cache :=
  ⟨[kD, kC], [⟨kD, halfMBVal, 500025⟩, ⟨kC, halfMBVal, 500025⟩],
   1048576, 1000050⟩

/-- The state after inserting A, B, C (each entry 500025 bytes, the
capacity holds exactly two) into a fresh 1 MB cache: A is already
evicted. -/
def cAfterABC2 : Cache :=
  ⟨[kC, kB], [⟨kC, halfMBVal, 500025⟩, ⟨kB, halfMBVal, 500025⟩],
   1048576, 1000050⟩

/-- C7 counterexample: with a capacity holding exactly two of the entries
involved, inserting A, B, C, D leaves only C and D present: B is absent,
contradicting the claimed final state in which B, C and D are present
(the third insert already evicts A, and the fourth evicts B). -/
theorem C7_counterexample :
    New 1 = some oneMBCache ∧
    calculateEntrySize kA halfMBVal = 500025 ∧
    runOps oneMBCache [.set kA halfMBVal, .set kB halfMBVal,
      .set kC halfMBVal, .set kD halfMBVal] = some cAfterABCD2 ∧
    (Get cAfterABCD2 kB).1 = none ∧
    (Get cAfterABCD2 kC).1 = some halfMBVal ∧
    (Get cAfterABCD2 kD).1 = some halfMBVal :=
  ⟨by decide, by decide, by decide, by decide, by decide, by decide⟩

/-- The state after inserting A, B, C, D (each entry 300025 bytes, the
capacity holds exactly three) into a fresh 1 MB cache: A evicted, B, C,
D present. -/
def cAfterLru3 : Cache :=
  ⟨[kD, kC, kB], [⟨kD, thirdMBVal, 300025⟩, ⟨kC, thirdMBVal, 300025⟩,
    ⟨kB, thirdMBVal, 300025⟩], 1048576, 900075⟩

/-- C7 (amended): with a capacity holding exactly three of the entries
involved (as in the example program of the repository), inserting
distinct keys A, B, C in that order and then inserting D evicts exactly
A, the least recently used, leaving B, C and D present and A absent. -/
theorem C7_amended_lru_order :
    New 1 = some oneMBCache ∧
    calculateEntrySize kA thirdMBVal = 300025 ∧
    runOps oneMBCache [.set kA thirdMBVal, .set kB thirdMBVal,
      .set kC thirdMBVal, .set kD thirdMBVal] = some cAfterLru3 ∧
    (Get cAfterLru3 kA).1 = none ∧
    (Get cAfterLru3 kB).1 = some thirdMBVal ∧
    (Get cAfterLru3 kC).1 = some thirdMBVal ∧
    (Get cAfterLru3 kD).1 = some thirdMBVal :=
  ⟨by decide, by decide, by decide, by decide, by decide, by decide,
   by decide⟩

/-- C8 counterexample: with a capacity holding exactly two of the entries
involved, A is already evicted by the third insert, so the Get(A) before
inserting D is a miss and cannot move A to most-recently-used; after
inserting D the cache holds C and D only: A is absent, contradicting the
claimed outcome in which the refreshed A survives and only B is
evicted. -/
theorem C8_counterexample :
    New 1 = some oneMBCache ∧
    runOps oneMBCache [.set kA halfMBVal, .set kB halfMBVal,
      .set kC halfMBVal] = some cAfterABC2 ∧
    (Get cAfterABC2 kA).1 = none ∧
    runOps oneMBCache [.set kA halfMBVal, .set kB halfMBVal,
      .set kC halfMBVal, .get kA, .set kD halfMBVal] = some cAfterABCD2 ∧
    (Get cAfterABCD2 kA).1 = none :=
  ⟨by decide, by decide, by decide, by decide, by decide⟩

/-- The state after inserting A, B, C (each entry 300025 bytes, the
capacity holds exactly three), reading A, then inserting D into a fresh
1 MB cache: the read refreshed A, so B was evicted instead. -/
def cAfterRefresh3 : Cache :=
  ⟨[kD, kC, kA], [⟨kD, thirdMBVal, 300025⟩, ⟨kA, thirdMBVal, 300025⟩,
    ⟨kC, thirdMBVal, 300025⟩], 1048576, 900075⟩

/-- C8 (amended): with a capacity holding exactly three of the entries
involved, after inserting A, B, C, performing Get(A) and then inserting D
causes B (not A) to be evicted, because the read moved A to the
most-recently-used position. -/
theorem C8_amended_recency_refresh :
    New 1 = some oneMBCache ∧
    runOps oneMBCache [.set kA thirdMBVal, .set kB thirdMBVal,
      .set kC thirdMBVal, .get kA, .set kD thirdMBVal] =
      some cAfterRefresh3 ∧
    (Get cAfterRefresh3 kB).1 = none ∧
    (Get cAfterRefresh3 kA).1 = some thirdMBVal ∧
    (Get cAfterRefresh3 kC).1 = some thirdMBVal ∧
    (Get cAfterRefresh3 kD).1 = some thirdMBVal :=
  ⟨by decide, by decide, by decide, by decide, by decide, by decide⟩

end GoVault

namespace GoVault

/-- Go static types of the generic cache parameters, for the simple
estimator of the second implementation (src/govault/cache.go). -/
inductive GoStaticType where
  | string
  | int64
  | bool
  | pointer
  | sliceT
  | mapT
  | interfaceT
deriving DecidableEq

/-- The value of `unsafe.Sizeof(x)` for an expression x of the given
static type, on a 64-bit platform: string header 16, int64 8, bool 1,
pointer 8, slice header 24, map header 8, interface header 16. -/
def sizeofStatic : GoStaticType → Int
  | .string => 16
  | .int64 => 8
  | .bool => 1
  | .pointer => 8
  | .sliceT => 24
  | .mapT => 8
  | .interfaceT => 16

/-- calculateEntrySize of the second cache implementation in the
repository (src/govault/cache.go lines 117-122):
`int64(unsafe.Sizeof(key)) + int64(unsafe.Sizeof(value))`.
`unsafe.Sizeof` depends only on the static types of the generic
parameters, never on the runtime values, so the value arguments are
ignored. -/
def simpleCalculateEntrySize (kt vt : GoStaticType)
    ( _key _value : GoVal) : Int :=
  sizeofStatic kt + sizeofStatic vt

/-- C9 counterexample: the claim covers the estimator used by every Set
in the cache implementations of the repository, but the second
implementation (src/govault/cache.go) estimates a string entry as
`unsafe.Sizeof(key) + unsafe.Sizeof(value)` = 32 regardless of the
string content, so the estimate of a zero-length string value equals
that of a two-byte one: it is not header cost plus content length and
does not grow with string length. -/
theorem C9_counterexample :
    simpleCalculateEntrySize .string .string (.str [107]) (.str []) = 32 ∧
    simpleCalculateEntrySize .string .string (.str [107]) (.str [97, 98]) = 32 ∧
    (GoVal.str []) ≠ (GoVal.str [97, 98]) :=
  ⟨rfl, rfl, by decide⟩

/-- C9 (amended): the reflective estimator of src/govault.go (the one
invoked by Set in that implementation) estimates every string value as a
fixed 16-byte header plus the number of content bytes, so the estimate
strictly grows with string length. -/
theorem C9_amended_string_growth (s t : List Nat) (h : s.length < t.length) :
    calculateSize (.str s) = 16 + (s.length : Int) ∧
    calculateSize (.str s) < calculateSize (.str t) := by
  constructor
  · simp [calculateSize]
  · simp only [calculateSize]
    omega

/-- C9 witness: the empty string is estimated at 16 bytes, strictly below
the estimate of a one-byte string. -/
theorem C9_witness :
    calculateSize (.str []) = 16 ∧
    calculateSize (.str []) < calculateSize (.str [97]) := by
  have h := C9_amended_string_growth [] [97] (by decide)
  exact ⟨by simpa using h.1, h.2⟩

/-- C10 counterexample: the claim asserts a non-positive wrapped capacity
for every maxMB whose byte product overflows int64 (citing maxMB >=
2^43), but at maxMB = 2^44 + 1 the product 2^64 + 2^20 overflows int64
(it exceeds 2^63 - 1) yet wraps to +1048576, a positive capacity. -/
theorem C10_counterexample :
    New 17592186044417 = some (⟨[], [], 1048576, 0⟩ : Cache) ∧
    (0 : Int) < 1048576 ∧
    (9223372036854775807 : Int) < 17592186044417 * 1024 * 1024 :=
  ⟨by decide, by decide, by decide⟩

/-- C10 (amended): construction accepts maxMB = 2^43 without any overflow
check; the stored capacity wraps to -2^63, which is negative, and a
subsequent Set of any entry keeps the eviction loop condition true after
every iteration of the loop body (the total stays nonnegative while the
capacity is negative), so Set never terminates; the fuelled model
accordingly returns `none`. -/
theorem C10_amended_overflow_divergence (k v : GoVal) (n : Nat) :
    New 8796093022208 = some ovCache ∧ ovCache.maxSize < 0 ∧
    (evictIter n (setBody ovCache k v)).maxSize <
      (evictIter n (setBody ovCache k v)).currSize ∧
    Set ovCache k v = none :=
  ⟨New_pow43, by decide, ovCache_loop_cond k v n, Set_ovCache_none k v⟩

end GoVault
